import Mathlib

/-!
Verification development for the `agentic-rag` chunking core
(`src/ingestion/chunker.py` and `src/ingestion/cast_parser.py`).

Python strings are modelled as `List Char` (Python `len` counts code
points, which matches `List.length`).  Python `int` is modelled as `Int`.
Functions that the source writes as loops over mutable state are written
as structural folds over the same state; a loop that the source does not
guarantee to terminate is modelled with explicit fuel.
-/

set_option autoImplicit false

/- ------------------------------------------------------------------ -/
/- Python string primitives                                            -/
/- ------------------------------------------------------------------ -/

/-- Whitespace characters stripped by Python `str.strip()` (ASCII range). -/
def pyIsSpace (c : Char) : Bool :=
  c == ' ' || c == '\t' || c == '\n' || c == '\r' || c == '\x0b' || c == '\x0c'

/-- Python `str.strip()`: drop leading and trailing whitespace. -/
def pyStrip (s : List Char) : List Char :=
  ((s.dropWhile pyIsSpace).reverse.dropWhile pyIsSpace).reverse

/-- Python `str.split(c)` for a one-character separator.
`"".split(c) = [""]`, and separators at the ends produce empty pieces. -/
def pySplitChar (c : Char) : List Char → List (List Char)
  | [] => [[]]
  | x :: xs =>
    if x = c then [] :: pySplitChar c xs
    else
      match pySplitChar c xs with
      | [] => [[x]]
      | w :: ws => (x :: w) :: ws

/-- Worker for Python `str.split(sep)` with a non-empty separator
`a :: sep'`: greedy left-to-right scan for non-overlapping occurrences. -/
def splitStrGo (a : Char) (sep' : List Char) : List Char → List (List Char)
  | [] => [[]]
  | x :: xs =>
    if (a :: sep').isPrefixOf (x :: xs) then
      [] :: splitStrGo a sep' (xs.drop sep'.length)
    else
      match splitStrGo a sep' xs with
      | [] => [[x]]
      | w :: ws => (x :: w) :: ws
termination_by s => s.length
decreasing_by
  · simp; omega
  · simp

/-- Python `str.split(sep)`.  (Python raises on an empty separator; the
`[]` case below is never used by the development.) -/
def pySplitStr (sep s : List Char) : List (List Char) :=
  match sep with
  | [] => [s]
  | a :: sep' => splitStrGo a sep' s

/-- Normalisation of a Python slice/`rfind` index against a string of
length `len`: negative indices count from the end and are clamped to 0,
positive indices are clamped to `len`. -/
def pyNorm (len : Nat) (i : Int) : Nat :=
  if i < 0 then ((len : Int) + i).toNat else min i.toNat len

/-- Python slice `s[i:j]` with full index normalisation. -/
def pySlice (s : List Char) (i j : Int) : List Char :=
  (s.take (pyNorm s.length j)).drop (pyNorm s.length i)

/-- Python `s.rfind(sub, i, j)`: the largest absolute position `k` with
`norm i ≤ k`, `k + |sub| ≤ norm j` and `sub` occurring at `k`; `-1` if
there is none. -/
def pyRfind (sub s : List Char) (i j : Int) : Int :=
  let lo := pyNorm s.length i
  let hi := pyNorm s.length j
  let occ := (List.range (s.length + 1)).filter
    (fun k => decide (lo ≤ k) && decide (k + sub.length ≤ hi) && sub.isPrefixOf (s.drop k))
  match occ.getLast? with
  | some k => (k : Int)
  | none => -1

/-- Python `sep.join(ws)`. -/
def joinSep (sep : List Char) : List (List Char) → List Char
  | [] => []
  | [w] => w
  | w :: v :: ws => w ++ sep ++ joinSep sep (v :: ws)

/-- `w` never overlaps an adjacent separator: no occurrence of `sep`
starts strictly inside `w ++ sep`.  (For `sep = "\n\n"` this says `w`
contains no blank line and does not end with a newline.) -/
def sepClean (sep w : List Char) : Bool :=
  (List.range w.length).all fun i => !(sep.isPrefixOf (w.drop i ++ sep))

/-- Total character count of a list of strings. -/
def sumLen (ws : List (List Char)) : Nat := (ws.map List.length).sum

/-- The blank-line separator `"\n\n"` used by the code merger. -/
def blankSep : List Char := '\n' :: '\n' :: []

/- ------------------------------------------------------------------ -/
/- Data model (`cast_parser.CodeChunk`, `chunker.SemanticChunk`)       -/
/- ------------------------------------------------------------------ -/

/-- `cast_parser.CodeChunk`: one extracted code unit. -/
structure CodeChunk where
  name : List Char
  language : List Char
  body : List Char
  docstring : List Char := []
  start_line : Int := 0
  end_line : Int := 0
  file_path : List Char := []
  chunk_type : List Char := "method".toList
  deriving DecidableEq, Repr

/-- The chunk id f-strings of `chunker.py`, kept structured: which
format string was used and the values interpolated into it. -/
inductive ChunkId where
  | code (file_path : List Char) (chunk_index : Nat)
  | doc (source : List Char) (section_index : Nat)
  | docSub (source : List Char) (section_index sub_index : Nat)
  deriving DecidableEq, Repr

/-- The three metadata dict shapes built in `chunker.py` (the `"type"`
key always equals the constructor's kind and is left implicit). -/
inductive ChunkMeta where
  | code (file_path language : List Char) (chunk_index : Nat)
  | doc (source file_type : List Char) (section_index : Nat)
  | docSub (source : List Char) (section_index sub_index : Nat)
  deriving DecidableEq, Repr

/-- `chunker.SemanticChunk`. -/
structure SemanticChunk where
  id : ChunkId
  content : List Char
  chunk_type : List Char
  metadata : ChunkMeta
  deriving DecidableEq, Repr

/-- The `language` recorded in a code chunk's metadata, if any. -/
def metaLanguage (c : SemanticChunk) : Option (List Char) :=
  match c.metadata with
  | ChunkMeta.code _ lang _ => some lang
  | _ => none

/- ------------------------------------------------------------------ -/
/- cast_parser helpers                                                 -/
/- ------------------------------------------------------------------ -/

/-- `cast_parser._is_trivial_getter_setter`. -/
def isTrivialGetterSetter (name body_text : List Char) : Bool :=
  let lower_name := name.map Char.toLower
  if !(["get".toList, "set".toList, "is".toList].any (fun p => p.isPrefixOf lower_name)) then
    false
  else
    decide (body_text.count ';' ≤ 2)

/-- The piece after the last `'.'`: Python `path.rsplit(".", 1)[-1]`
when `'.' ∈ path`. -/
def lastDotSegment (path : List Char) : List Char :=
  (path.reverse.takeWhile (fun c => c != '.')).reverse

/-- The extension computed by `cast_parser.parse_file`:
`file_path.rsplit(".", 1)[-1].lower() if "." in file_path else ""`. -/
def extOf (path : List Char) : List Char :=
  if path.contains '.' then (lastDotSegment path).map Char.toLower else []

/-- `cast_parser.parse_file`.  The two tree-sitter extraction functions
are opaque external collaborators here and are taken as parameters; the
dispatch on the extension is the code under verification. -/
def parse_file (extractJava extractTs : List Char → List Char → List CodeChunk)
    (file_content file_path : List Char) : List CodeChunk :=
  let ext := extOf file_path
  if ext = "java".toList then extractJava file_content file_path
  else if ext = "ts".toList ∨ ext = "tsx".toList then extractTs file_content file_path
  else []

/- ------------------------------------------------------------------ -/
/- CodeChunker                                                         -/
/- ------------------------------------------------------------------ -/

/-- `chunker.CodeChunker`: the state set by `__init__`. -/
structure CodeChunker where
  max_chars : Int
  overlap_chars : Int
  deriving DecidableEq, Repr

/-- `CodeChunker.__init__`: assigns the two attributes and performs no
validation; the `Except` result records the absence of any raise. -/
def CodeChunker.init (max_chars overlap_chars : Int) : Except (List Char) CodeChunker :=
  Except.ok { max_chars := max_chars, overlap_chars := overlap_chars }

/-- One step of Python's stable `list.sort(key=start_line)`: insert an
element into a sorted list, after any elements with an equal key (the
element being inserted comes from earlier in the original list, so this
`foldr`-driven insertion is stable, as Python's sort is). -/
def insertSorted (u : CodeChunk) : List CodeChunk → List CodeChunk
  | [] => [u]
  | v :: vs =>
    if u.start_line ≤ v.start_line then u :: v :: vs else v :: insertSorted u vs

/-- `file_chunks.sort(key=lambda c: c.start_line)` (stable). -/
def sortByStart (l : List CodeChunk) : List CodeChunk :=
  l.foldr insertSorted []

/-- One step of `by_file.setdefault(chunk.file_path, []).append(chunk)`:
append to the existing bucket, or add a new key at the end (Python dicts
preserve insertion order). -/
def addToGroups : List (List Char × List CodeChunk) → CodeChunk →
    List (List Char × List CodeChunk)
  | [], u => [(u.file_path, [u])]
  | (k, l) :: gs, u =>
    if k = u.file_path then (k, l ++ [u]) :: gs else (k, l) :: addToGroups gs u

/-- The `by_file` dict of `CodeChunker.chunk`, as an insertion-ordered
association list. -/
def groupByFile (units : List CodeChunk) : List (List Char × List CodeChunk) :=
  units.foldl addToGroups []

/-- The text representation built for one unit inside
`CodeChunker.chunk`: `"\n".join(text_parts)` where `text_parts` holds
the docstring (only when non-empty, by Python truthiness) and the body. -/
def entryText (u : CodeChunk) : List Char :=
  if u.docstring = [] then u.body else u.docstring ++ '\n' :: u.body

/-- A flushed code chunk as built in `CodeChunker.chunk`. -/
def mkCodeChunk (fp : List Char) (idx : Nat) (content lang : List Char) : SemanticChunk :=
  { id := ChunkId.code fp idx
    content := content
    chunk_type := "code".toList
    metadata := ChunkMeta.code fp lang idx }

/-- The per-file accumulation loop of `CodeChunker.chunk`:
state `(current_buffer, current_length, chunk_idx)` threaded through the
sorted unit list.  A mid-loop flush records `fc.language` of the unit
being processed; the final flush records `firstLang`
(`file_chunks[0].language`, passed in by the caller). -/
def chunkLoop (fp : List Char) (mc : Int) (firstLang : List Char) :
    List CodeChunk → List (List Char) → Nat → Nat → List SemanticChunk
  | [], buffer, _, idx =>
    if buffer = [] then []
    else [mkCodeChunk fp idx (joinSep blankSep buffer) firstLang]
  | fc :: rest, buffer, curLen, idx =>
    let entry := entryText fc
    if mc < (curLen : Int) + entry.length ∧ buffer ≠ [] then
      mkCodeChunk fp idx (joinSep blankSep buffer) fc.language ::
        chunkLoop fp mc firstLang rest [entry] entry.length (idx + 1)
    else
      chunkLoop fp mc firstLang rest (buffer ++ [entry]) (curLen + entry.length) idx

/-- `CodeChunker.chunk`: group by file (dict insertion order), sort each
file's units by `start_line` (stable), then run the accumulation loop
per file and concatenate. -/
def CodeChunker.chunk (self : CodeChunker) (code_chunks : List CodeChunk) :
    List SemanticChunk :=
  if code_chunks = [] then []
  else
    (groupByFile code_chunks).flatMap fun g =>
      let file_chunks := sortByStart g.2
      let firstLang :=
        match file_chunks with
        | [] => "unknown".toList
        | u :: _ => u.language
      chunkLoop g.1 self.max_chars firstLang file_chunks [] 0 0

/- ------------------------------------------------------------------ -/
/- DocumentChunker                                                     -/
/- ------------------------------------------------------------------ -/

/-- `chunker.DocumentChunker`: the state set by `__init__`. -/
structure DocumentChunker where
  max_chars : Int
  overlap_chars : Int
  deriving DecidableEq, Repr

/-- `DocumentChunker.__init__`: assigns the two attributes and performs
no validation. -/
def DocumentChunker.init (max_chars overlap_chars : Int) :
    Except (List Char) DocumentChunker :=
  Except.ok { max_chars := max_chars, overlap_chars := overlap_chars }

/-- The split condition of `_split_on_headers`: the stripped line starts
with `"#"` or is exactly one of the horizontal rules. -/
def isBoundaryLine (line : List Char) : Bool :=
  let stripped := pyStrip line
  ("#".toList).isPrefixOf stripped ||
    ["---".toList, "***".toList, "___".toList].contains stripped

/-- The line scan of `_split_on_headers`, yielding the groups of lines
that are joined into sections. -/
def headerLoop : List (List Char) → List (List Char) → List (List (List Char))
  | [], current => if current = [] then [] else [current]
  | line :: rest, current =>
    if isBoundaryLine line = true ∧ current ≠ [] then
      current :: headerLoop rest [line]
    else
      headerLoop rest (current ++ [line])

/-- `DocumentChunker._split_on_headers`. -/
def splitOnHeaders (content : List Char) : List (List Char) :=
  (headerLoop (pySplitChar '\n' content) []).map (joinSep ['\n'])

/-- A chunk emitted by `DocumentChunker.chunk` for a small section. -/
def mkDocChunk (src ft : List Char) (idx : Nat) (content : List Char) : SemanticChunk :=
  { id := ChunkId.doc src idx
    content := content
    chunk_type := "doc".toList
    metadata := ChunkMeta.doc src ft idx }

/-- A chunk emitted by `DocumentChunker._split_by_length`. -/
def mkDocSubChunk (src : List Char) (secIdx subIdx : Nat) (content : List Char) :
    SemanticChunk :=
  { id := ChunkId.docSub src secIdx subIdx
    content := content
    chunk_type := "doc".toList
    metadata := ChunkMeta.docSub src secIdx subIdx }

/-- The `while start < len(text)` loop of `DocumentChunker._split_by_length`,
with explicit fuel (`none` means the fuel ran out before the loop
finished; the source loop is not guaranteed to terminate). -/
def splitByLenLoop (mc oc : Int) (text src : List Char) (secIdx : Nat) :
    Nat → Int → Nat → List SemanticChunk → Option (List SemanticChunk)
  | 0, _, _, _ => none
  | fuel + 1, start, subIdx, acc =>
    if start < (text.length : Int) then
      let end0 : Int := min (start + mc) (text.length : Int)
      let endPos : Int :=
        if end0 < (text.length : Int) then
          let last_break := pyRfind blankSep text start end0
          if start < last_break then last_break else end0
        else end0
      let chunk_text := pyStrip (pySlice text start endPos)
      let acc' := if chunk_text = [] then acc
        else acc ++ [mkDocSubChunk src secIdx subIdx chunk_text]
      let subIdx' := if chunk_text = [] then subIdx else subIdx + 1
      let start' := if endPos < (text.length : Int) then endPos - oc else (text.length : Int)
      splitByLenLoop mc oc text src secIdx fuel start' subIdx' acc'
    else some acc

/-- The `for idx, section in enumerate(sections)` loop of
`DocumentChunker.chunk`. -/
def docChunkGo (fuel : Nat) (mc oc : Int) (src ft : List Char) :
    List (List Char) → Nat → Option (List SemanticChunk)
  | [], _ => some []
  | sec :: rest, idx =>
    let cur : Option (List SemanticChunk) :=
      if (sec.length : Int) ≤ mc then some [mkDocChunk src ft idx (pyStrip sec)]
      else splitByLenLoop mc oc sec src idx fuel 0 0 []
    match cur, docChunkGo fuel mc oc src ft rest (idx + 1) with
    | some c, some r => some (c ++ r)
    | _, _ => none

/-- `DocumentChunker.chunk`, with fuel for the inner carving loops. -/
def DocumentChunker.chunkFuel (self : DocumentChunker) (fuel : Nat)
    (content src ft : List Char) : Option (List SemanticChunk) :=
  if pyStrip content = [] then some []
  else docChunkGo fuel self.max_chars self.overlap_chars src ft (splitOnHeaders content) 0

/- ------------------------------------------------------------------ -/
/- SemanticChunkerPipeline                                             -/
/- ------------------------------------------------------------------ -/

/-- `chunker.SemanticChunkerPipeline`. -/
structure SemanticChunkerPipeline where
  code_chunker : CodeChunker
  doc_chunker : DocumentChunker
  deriving DecidableEq, Repr

/-- `SemanticChunkerPipeline.__init__`: builds the two chunkers with the
given size limits and the constructors' default overlaps; no validation
anywhere. -/
def SemanticChunkerPipeline.init (code_max_chars doc_max_chars : Int) :
    Except (List Char) SemanticChunkerPipeline :=
  Except.ok
    { code_chunker := { max_chars := code_max_chars, overlap_chars := 200 }
      doc_chunker := { max_chars := doc_max_chars, overlap_chars := 150 } }

/-- `SemanticChunkerPipeline.chunk_code`. -/
def SemanticChunkerPipeline.chunk_code (self : SemanticChunkerPipeline)
    (code_chunks : List CodeChunk) : List SemanticChunk :=
  self.code_chunker.chunk code_chunks

/-- `SemanticChunkerPipeline.chunk_document`. -/
def SemanticChunkerPipeline.chunk_document (self : SemanticChunkerPipeline)
    (fuel : Nat) (content src ft : List Char) : Option (List SemanticChunk) :=
  self.doc_chunker.chunkFuel fuel content src ft

/- ------------------------------------------------------------------ -/
/- String lemmas                                                       -/
/- ------------------------------------------------------------------ -/

lemma joinSep_cons_cons (sep w v : List Char) (ws : List (List Char)) :
    joinSep sep (w :: v :: ws) = w ++ sep ++ joinSep sep (v :: ws) := rfl

lemma pySplitChar_ne_nil (c : Char) (s : List Char) : pySplitChar c s ≠ [] := by
  induction s with
  | nil => simp [pySplitChar]
  | cons x xs ih =>
    simp only [pySplitChar]
    split
    · simp
    · cases h : pySplitChar c xs <;> simp

lemma joinSep_pySplitChar (c : Char) (s : List Char) :
    joinSep [c] (pySplitChar c s) = s := by
  induction s with
  | nil => rfl
  | cons x xs ih =>
    simp only [pySplitChar]
    split
    case isTrue h =>
      cases hx : pySplitChar c xs with
      | nil => exact absurd hx (pySplitChar_ne_nil c xs)
      | cons w ws =>
        rw [hx] at ih
        rw [joinSep_cons_cons, ← ih, h]
        rfl
    case isFalse h =>
      cases hx : pySplitChar c xs with
      | nil => exact absurd hx (pySplitChar_ne_nil c xs)
      | cons w ws =>
        rw [hx] at ih
        cases ws with
        | nil =>
          simp [joinSep] at ih ⊢
          rw [ih]
        | cons v ws' =>
          rw [joinSep_cons_cons] at ih ⊢
          rw [← ih]
          simp

lemma isPrefixOf_append_of_le (sep u t : List Char) (h : sep.length ≤ u.length) :
    sep.isPrefixOf (u ++ t) = sep.isPrefixOf u := by
  induction sep generalizing u with
  | nil => simp [List.isPrefixOf]
  | cons s sep ih =>
    cases u with
    | nil => simp at h
    | cons x u' =>
      simp only [List.cons_append, List.isPrefixOf, List.append_eq]
      rw [ih u' (by simpa using h)]

lemma sepClean_iff (sep w : List Char) :
    sepClean sep w = true ↔
      ∀ i, i < w.length → sep.isPrefixOf (w.drop i ++ sep) = false := by
  simp [sepClean, List.all_eq_true, List.mem_range, Bool.not_eq_true']

lemma sepClean_cons (sepc : List Char) (xc : Char) (w : List Char)
    (h : sepClean sepc (xc :: w) = true) : sepClean sepc w = true := by
  rw [sepClean_iff] at h ⊢
  intro i hi
  have := h (i + 1) (by simpa using Nat.succ_lt_succ hi)
  simpa using this

lemma sepClean_head (sep : List Char) (x : Char) (w : List Char)
    (h : sepClean sep (x :: w) = true) :
    sep.isPrefixOf ((x :: w) ++ sep) = false := by
  rw [sepClean_iff] at h
  simpa using h 0 (by simp)

lemma splitStrGo_sep_append (a : Char) (sep' t : List Char) :
    splitStrGo a sep' ((a :: sep') ++ t) = [] :: splitStrGo a sep' t := by
  have hpre : (a :: sep').isPrefixOf ((a :: sep') ++ t) = true := by
    rw [List.isPrefixOf_iff_prefix]
    exact List.prefix_append _ _
  rw [show (a :: sep') ++ t = a :: (sep' ++ t) from rfl]
  rw [splitStrGo]
  simp only [List.cons_append] at hpre
  rw [if_pos hpre]
  rw [List.drop_left]

lemma splitStrGo_word_append (a : Char) (sep' w t : List Char)
    (hw : sepClean (a :: sep') w = true) :
    splitStrGo a sep' (w ++ (a :: sep') ++ t) = w :: splitStrGo a sep' t := by
  induction w with
  | nil => simpa using splitStrGo_sep_append a sep' t
  | cons x w' ih =>
    have hhead := sepClean_head (a :: sep') x w' hw
    have h2 : (a :: sep').isPrefixOf ((x :: w') ++ (a :: sep') ++ t) = false := by
      rw [isPrefixOf_append_of_le _ _ _ (by simp; omega)]
      exact hhead
    have e1 : (x :: w') ++ (a :: sep') ++ t = x :: (w' ++ (a :: sep') ++ t) := by simp
    rw [e1] at h2 ⊢
    rw [splitStrGo]
    rw [if_neg (by simp only [h2]; exact Bool.false_ne_true)]
    rw [ih (sepClean_cons (a :: sep') x w' hw)]

lemma splitStrGo_clean (a : Char) (sep' w : List Char)
    (hw : sepClean (a :: sep') w = true) :
    splitStrGo a sep' w = [w] := by
  induction w with
  | nil => rw [splitStrGo]
  | cons x w' ih =>
    have hhead := sepClean_head (a :: sep') x w' hw
    have h2 : (a :: sep').isPrefixOf (x :: w') = false := by
      cases h : (a :: sep').isPrefixOf (x :: w')
      · rfl
      · exfalso
        rw [List.isPrefixOf_iff_prefix] at h
        have hq : (a :: sep') <+: (x :: w') ++ (a :: sep') :=
          h.trans (List.prefix_append _ _)
        rw [← List.isPrefixOf_iff_prefix, hhead] at hq
        cases hq
    rw [splitStrGo]
    rw [if_neg (by simp only [h2]; exact Bool.false_ne_true)]
    rw [ih (sepClean_cons (a :: sep') x w' hw)]

lemma splitStrGo_joinSep (a : Char) (sep' : List Char) (ws : List (List Char))
    (hne : ws ≠ []) (hcl : ∀ w ∈ ws, sepClean (a :: sep') w = true) :
    splitStrGo a sep' (joinSep (a :: sep') ws) = ws := by
  induction ws with
  | nil => exact absurd rfl hne
  | cons w ws ih =>
    cases ws with
    | nil => simpa [joinSep] using splitStrGo_clean a sep' w (hcl w (by simp))
    | cons v ws' =>
      rw [joinSep_cons_cons]
      rw [splitStrGo_word_append a sep' w _ (hcl w (by simp))]
      rw [ih (by simp) (fun x hx => hcl x (by simp [hx]))]

lemma pySplitStr_joinSep (sep : List Char) (ws : List (List Char))
    (hsep : sep ≠ []) (hne : ws ≠ []) (hcl : ∀ w ∈ ws, sepClean sep w = true) :
    pySplitStr sep (joinSep sep ws) = ws := by
  cases sep with
  | nil => exact absurd rfl hsep
  | cons a sep' => exact splitStrGo_joinSep a sep' ws hne hcl

lemma joinSep_length (sep : List Char) (ws : List (List Char)) :
    (joinSep sep ws).length = sumLen ws + sep.length * (ws.length - 1) := by
  induction ws with
  | nil => simp [joinSep, sumLen]
  | cons w ws ih =>
    cases ws with
    | nil => simp [joinSep, sumLen]
    | cons v ws' =>
      rw [joinSep_cons_cons]
      rw [List.length_append, List.length_append, ih]
      simp only [sumLen, List.map_cons, List.sum_cons, List.length_cons,
        Nat.add_sub_cancel, Nat.mul_succ]
      omega

/- ------------------------------------------------------------------ -/
/- Sorting and grouping lemmas                                         -/
/- ------------------------------------------------------------------ -/

lemma mem_insertSorted (u : CodeChunk) (l : List CodeChunk) (x : CodeChunk) :
    x ∈ insertSorted u l ↔ x = u ∨ x ∈ l := by
  induction l with
  | nil => simp [insertSorted]
  | cons v vs ih =>
    simp only [insertSorted]
    split
    · simp
    · simp only [List.mem_cons, ih]
      tauto

lemma mem_sortByStart (l : List CodeChunk) (x : CodeChunk) :
    x ∈ sortByStart l ↔ x ∈ l := by
  induction l with
  | nil => simp [sortByStart]
  | cons y ys ih =>
    show x ∈ insertSorted y (sortByStart ys) ↔ _
    rw [mem_insertSorted, ih]
    simp

lemma sortByStart_ne_nil (l : List CodeChunk) (h : l ≠ []) : sortByStart l ≠ [] := by
  cases l with
  | nil => exact absurd rfl h
  | cons y ys =>
    intro hc
    have : y ∈ sortByStart (y :: ys) := (mem_sortByStart _ _).mpr (by simp)
    rw [hc] at this
    cases this

lemma sortByStart_eq_of_sorted (l : List CodeChunk)
    (h : List.Pairwise (fun a b => a.start_line ≤ b.start_line) l) :
    sortByStart l = l := by
  induction l with
  | nil => rfl
  | cons x xs ih =>
    rw [List.pairwise_cons] at h
    show insertSorted x (sortByStart xs) = x :: xs
    rw [ih h.2]
    cases xs with
    | nil => rfl
    | cons y ys =>
      simp only [insertSorted]
      rw [if_pos (h.1 y (by simp))]

lemma mem_addToGroups_sub (gs : List (List Char × List CodeChunk)) (u : CodeChunk)
    (p : List Char × List CodeChunk) (hp : p ∈ addToGroups gs u)
    (x : CodeChunk) (hx : x ∈ p.2) :
    (∃ q ∈ gs, x ∈ q.2) ∨ x = u := by
  induction gs with
  | nil =>
    simp only [addToGroups, List.mem_singleton] at hp
    subst hp
    simp at hx
    exact Or.inr hx
  | cons g gs ih =>
    obtain ⟨k, l⟩ := g
    simp only [addToGroups] at hp
    split at hp
    · rcases List.mem_cons.mp hp with h1 | h2
      · subst h1
        rcases List.mem_append.mp hx with h3 | h4
        · exact Or.inl ⟨(k, l), by simp, h3⟩
        · simp at h4
          exact Or.inr h4
      · exact Or.inl ⟨p, by simp [h2], hx⟩
    · rcases List.mem_cons.mp hp with h1 | h2
      · subst h1
        exact Or.inl ⟨(k, l), by simp, hx⟩
      · rcases ih h2 with ⟨q, hq, hxq⟩ | heq
        · exact Or.inl ⟨q, by simp [hq], hxq⟩
        · exact Or.inr heq

lemma foldl_addToGroups_sub (us : List CodeChunk) :
    ∀ (gs : List (List Char × List CodeChunk)) (p : List Char × List CodeChunk),
    p ∈ us.foldl addToGroups gs → ∀ x ∈ p.2, (∃ q ∈ gs, x ∈ q.2) ∨ x ∈ us := by
  induction us with
  | nil =>
    intro gs p hp x hx
    exact Or.inl ⟨p, hp, hx⟩
  | cons u us ih =>
    intro gs p hp x hx
    rcases ih (addToGroups gs u) p hp x hx with ⟨q, hq, hxq⟩ | hxs
    · rcases mem_addToGroups_sub gs u q hq x hxq with ⟨r, hr, hxr⟩ | heq
      · exact Or.inl ⟨r, hr, hxr⟩
      · exact Or.inr (by simp [heq])
    · exact Or.inr (by simp [hxs])

lemma mem_of_mem_groupByFile (units : List CodeChunk)
    (p : List Char × List CodeChunk) (hp : p ∈ groupByFile units)
    (x : CodeChunk) (hx : x ∈ p.2) : x ∈ units := by
  rcases foldl_addToGroups_sub units [] p hp x hx with ⟨q, hq, _⟩ | h
  · cases hq
  · exact h

lemma addToGroups_snd_ne (gs : List (List Char × List CodeChunk)) (u : CodeChunk)
    (h : ∀ q ∈ gs, q.2 ≠ []) : ∀ p ∈ addToGroups gs u, p.2 ≠ [] := by
  induction gs with
  | nil =>
    intro p hp
    simp only [addToGroups, List.mem_singleton] at hp
    subst hp
    simp
  | cons g gs ih =>
    obtain ⟨k, l⟩ := g
    intro p hp
    simp only [addToGroups] at hp
    split at hp
    · rcases List.mem_cons.mp hp with h1 | h2
      · subst h1
        simp
      · exact h p (by simp [h2])
    · rcases List.mem_cons.mp hp with h1 | h2
      · subst h1
        exact h (k, l) (by simp)
      · exact ih (fun q hq => h q (by simp [hq])) p h2

lemma foldl_addToGroups_single (fp : List Char) (us : List CodeChunk) :
    ∀ (l : List CodeChunk), (∀ u ∈ us, u.file_path = fp) →
    us.foldl addToGroups [(fp, l)] = [(fp, l ++ us)] := by
  induction us with
  | nil => intro l _; simp
  | cons u us ih =>
    intro l h
    have hu : u.file_path = fp := h u (by simp)
    show us.foldl addToGroups (addToGroups [(fp, l)] u) = _
    have : addToGroups [(fp, l)] u = [(fp, l ++ [u])] := by
      simp [addToGroups, hu]
    rw [this, ih (l ++ [u]) (fun v hv => h v (by simp [hv]))]
    simp

lemma groupByFile_single (units : List CodeChunk) (fp : List Char)
    (hne : units ≠ []) (h : ∀ u ∈ units, u.file_path = fp) :
    groupByFile units = [(fp, units)] := by
  cases units with
  | nil => exact absurd rfl hne
  | cons u us =>
    have hu : u.file_path = fp := h u (by simp)
    show us.foldl addToGroups (addToGroups [] u) = _
    have : addToGroups [] u = [(fp, [u])] := by simp [addToGroups, hu]
    rw [this, foldl_addToGroups_single fp us [u] (fun v hv => h v (by simp [hv]))]
    simp

/- ------------------------------------------------------------------ -/
/- chunkLoop lemmas                                                    -/
/- ------------------------------------------------------------------ -/

lemma sumLen_append (xs ys : List (List Char)) :
    sumLen (xs ++ ys) = sumLen xs + sumLen ys := by
  simp [sumLen]

lemma sumLen_single (e : List Char) : sumLen [e] = e.length := by
  simp [sumLen]

/-- Splitting each flushed chunk's content back on the separator and
concatenating recovers the pending buffer followed by the entry texts,
whenever no entry overlaps the separator.  (The running length does not
affect which entries appear, only where the flush boundaries fall.) -/
lemma chunkLoop_splitJoin (fp : List Char) (mc : Int) (fl : List Char)
    (us : List CodeChunk) :
    ∀ (buffer : List (List Char)) (curLen idx : Nat),
    (∀ w ∈ buffer, sepClean blankSep w = true) →
    (∀ u ∈ us, sepClean blankSep (entryText u) = true) →
    (chunkLoop fp mc fl us buffer curLen idx).flatMap
        (fun c => pySplitStr blankSep c.content)
      = buffer ++ us.map entryText := by
  induction us with
  | nil =>
    intro buffer curLen idx hbuf _
    rw [chunkLoop]
    by_cases hb : buffer = []
    · simp [hb]
    · rw [if_neg hb]
      simp only [List.flatMap_cons, List.flatMap_nil, List.append_nil, mkCodeChunk]
      show pySplitStr blankSep (joinSep blankSep buffer) = buffer ++ []
      rw [pySplitStr_joinSep blankSep buffer (by simp [blankSep]) hb hbuf]
      simp
  | cons fc rest ih =>
    intro buffer curLen idx hbuf hus
    rw [chunkLoop]
    split
    case isTrue hcond =>
      simp only [List.flatMap_cons]
      rw [ih [entryText fc] _ _
        (by intro w hw; simp at hw; subst hw; exact hus fc (by simp))
        (fun u hu => hus u (by simp [hu]))]
      simp only [mkCodeChunk]
      show pySplitStr blankSep (joinSep blankSep buffer) ++ _ = _
      rw [pySplitStr_joinSep blankSep buffer (by simp [blankSep]) hcond.2 hbuf]
      simp
    case isFalse hcond =>
      rw [ih (buffer ++ [entryText fc]) _ _
        (by
          intro w hw
          rcases List.mem_append.mp hw with h1 | h2
          · exact hbuf w h1
          · simp at h2; subst h2; exact hus fc (by simp))
        (fun u hu => hus u (by simp [hu]))]
      simp

/-- Every chunk the loop emits carries the language `L` when every unit
has language `L` and the fallback language is `L`. -/
lemma chunkLoop_lang (fp : List Char) (mc : Int) (L : List Char)
    (us : List CodeChunk) :
    ∀ (buffer : List (List Char)) (curLen idx : Nat),
    (∀ u ∈ us, u.language = L) →
    ∀ c ∈ chunkLoop fp mc L us buffer curLen idx,
      ∃ i, c.metadata = ChunkMeta.code fp L i := by
  induction us with
  | nil =>
    intro buffer curLen idx _ c hc
    rw [chunkLoop] at hc
    split at hc
    · cases hc
    · simp at hc
      subst hc
      exact ⟨idx, rfl⟩
  | cons fc rest ih =>
    intro buffer curLen idx hlang c hc
    rw [chunkLoop] at hc
    split at hc
    case isTrue hcond =>
      rcases List.mem_cons.mp hc with h1 | h2
      · subst h1
        exact ⟨idx, by simp [mkCodeChunk, hlang fc (by simp)]⟩
      · exact ih _ _ _ (fun u hu => hlang u (by simp [hu])) c h2
    case isFalse hcond =>
      exact ih _ _ _ (fun u hu => hlang u (by simp [hu])) c hc

/-- Shape and size of every chunk the loop emits: the content is the
blank-line join of a non-empty run of entry texts, and a run of length
two or more has total entry length at most `mc`. -/
lemma chunkLoop_shape (fp : List Char) (mc : Int) (fl : List Char)
    (us : List CodeChunk) :
    ∀ (buffer : List (List Char)) (curLen idx : Nat),
    curLen = sumLen buffer →
    (buffer = [] ∨ buffer.length = 1 ∨ (sumLen buffer : Int) ≤ mc) →
    ∀ c ∈ chunkLoop fp mc fl us buffer curLen idx,
    ∃ entries, entries ≠ [] ∧ c.content = joinSep blankSep entries ∧
      (∀ e ∈ entries, e ∈ buffer ∨ ∃ u ∈ us, e = entryText u) ∧
      (entries.length = 1 ∨ (sumLen entries : Int) ≤ mc) := by
  induction us with
  | nil =>
    intro buffer curLen idx hlen hinv c hc
    rw [chunkLoop] at hc
    split at hc
    · cases hc
    case isFalse hb =>
      simp at hc
      subst hc
      refine ⟨buffer, hb, by simp [mkCodeChunk], fun e he => Or.inl he, ?_⟩
      rcases hinv with h1 | h2 | h3
      · exact absurd h1 hb
      · exact Or.inl h2
      · exact Or.inr h3
  | cons fc rest ih =>
    intro buffer curLen idx hlen hinv c hc
    rw [chunkLoop] at hc
    split at hc
    case isTrue hcond =>
      rcases List.mem_cons.mp hc with h1 | h2
      · subst h1
        refine ⟨buffer, hcond.2, by simp [mkCodeChunk], fun e he => Or.inl he, ?_⟩
        rcases hinv with h1 | h2 | h3
        · exact absurd h1 hcond.2
        · exact Or.inl h2
        · exact Or.inr h3
      · rcases ih [entryText fc] _ _ (by simp [sumLen_single])
            (Or.inr (Or.inl (by simp))) c h2 with
          ⟨entries, hne, hcont, hmem, hsize⟩
        refine ⟨entries, hne, hcont, ?_, hsize⟩
        intro e he
        rcases hmem e he with h3 | ⟨u, hu, he'⟩
        · simp at h3
          exact Or.inr ⟨fc, by simp, h3⟩
        · exact Or.inr ⟨u, by simp [hu], he'⟩
    case isFalse hcond =>
      have hnewlen : curLen + (entryText fc).length = sumLen (buffer ++ [entryText fc]) := by
        rw [sumLen_append, sumLen_single, hlen]
      have hnewinv : buffer ++ [entryText fc] = [] ∨
          (buffer ++ [entryText fc]).length = 1 ∨
          (sumLen (buffer ++ [entryText fc]) : Int) ≤ mc := by
        rcases Decidable.not_and_iff_or_not.mp hcond with h1 | h2
        · right; right
          rw [sumLen_append, sumLen_single, ← hlen]
          push_neg at h1
          push_cast
          omega
        · have hb : buffer = [] := by
            by_contra hb
            exact h2 hb
          right; left
          simp [hb]
      rcases ih (buffer ++ [entryText fc]) _ _ hnewlen hnewinv c hc with
        ⟨entries, hne, hcont, hmem, hsize⟩
      refine ⟨entries, hne, hcont, ?_, hsize⟩
      intro e he
      rcases hmem e he with h3 | ⟨u, hu, he'⟩
      · rcases List.mem_append.mp h3 with h4 | h5
        · exact Or.inl h4
        · simp at h5
          exact Or.inr ⟨fc, by simp, h5⟩
      · exact Or.inr ⟨u, by simp [hu], he'⟩

/- ------------------------------------------------------------------ -/
/- headerLoop lemmas                                                   -/
/- ------------------------------------------------------------------ -/

lemma headerLoop_flatten (ls : List (List Char)) :
    ∀ current, (headerLoop ls current).flatten = current ++ ls := by
  induction ls with
  | nil =>
    intro current
    rw [headerLoop]
    split
    case isTrue h => simp [h]
    case isFalse h => simp
  | cons line rest ih =>
    intro current
    rw [headerLoop]
    split
    case isTrue h => simp [ih]
    case isFalse h => simp [ih]

lemma headerLoop_ne_nil (ls : List (List Char)) :
    ∀ current, ∀ g ∈ headerLoop ls current, g ≠ [] := by
  induction ls with
  | nil =>
    intro current g hg
    rw [headerLoop] at hg
    split at hg
    · cases hg
    case isFalse h =>
      simp at hg
      subst hg
      exact h
  | cons line rest ih =>
    intro current g hg
    rw [headerLoop] at hg
    split at hg
    case isTrue h =>
      rcases List.mem_cons.mp hg with h1 | h2
      · subst h1; exact h.2
      · exact ih [line] g h2
    case isFalse h =>
      exact ih (current ++ [line]) g hg

lemma headerLoop_tail_clean (ls : List (List Char)) :
    ∀ current, (∀ l ∈ current.tail, isBoundaryLine l = false) →
    ∀ g ∈ headerLoop ls current, ∀ l ∈ g.tail, isBoundaryLine l = false := by
  induction ls with
  | nil =>
    intro current hcur g hg
    rw [headerLoop] at hg
    split at hg
    · cases hg
    · simp at hg
      subst hg
      exact hcur
  | cons line rest ih =>
    intro current hcur g hg
    rw [headerLoop] at hg
    split at hg
    case isTrue h =>
      rcases List.mem_cons.mp hg with h1 | h2
      · subst h1; exact hcur
      · exact ih [line] (by simp) g h2
    case isFalse h =>
      refine ih (current ++ [line]) ?_ g hg
      cases current with
      | nil =>
        simp
      | cons c cs =>
        have hline : isBoundaryLine line = false := by
          rcases Decidable.not_and_iff_or_not.mp h with h1 | h2
          · exact Bool.not_eq_true _ ▸ (by simpa using h1)
          · exact absurd (by simp : (c :: cs : List (List Char)) ≠ []) h2
        intro l hl
        simp only [List.cons_append, List.tail_cons] at hl
        rcases List.mem_append.mp hl with h3 | h4
        · exact hcur l (by simpa using h3)
        · simp at h4
          subst h4
          exact hline

lemma headerLoop_ext (ls : List (List Char)) :
    ∀ current, current ≠ [] →
    ∃ ext gs, headerLoop ls current = (current ++ ext) :: gs ∧
      ∀ g ∈ gs, ∃ l₀ g', g = l₀ :: g' ∧ isBoundaryLine l₀ = true := by
  induction ls with
  | nil =>
    intro current hc
    refine ⟨[], [], ?_, by simp⟩
    rw [headerLoop, if_neg hc]
    simp
  | cons line rest ih =>
    intro current hc
    rw [headerLoop]
    by_cases hcond : isBoundaryLine line = true ∧ current ≠ []
    · rw [if_pos hcond]
      rcases ih [line] (by simp) with ⟨ext, gs, heq, hgs⟩
      refine ⟨[], ([line] ++ ext) :: gs, by simp [heq], ?_⟩
      intro g hg
      rcases List.mem_cons.mp hg with h1 | h2
      · exact ⟨line, ext, by simp [h1], hcond.1⟩
      · exact hgs g h2
    · rw [if_neg hcond]
      rcases ih (current ++ [line]) (by simp) with ⟨ext, gs, heq, hgs⟩
      exact ⟨[line] ++ ext, gs, by simp [heq], hgs⟩

lemma headerLoop_tail_heads (ls : List (List Char)) :
    ∀ g ∈ (headerLoop ls []).tail, ∃ l₀ g', g = l₀ :: g' ∧ isBoundaryLine l₀ = true := by
  cases ls with
  | nil =>
    rw [headerLoop]
    simp
  | cons line rest =>
    rw [headerLoop]
    rw [if_neg (by simp)]
    rcases headerLoop_ext rest ([] ++ [line]) (by simp) with ⟨ext, gs, heq, hgs⟩
    rw [heq]
    simpa using hgs

lemma headerLoop_no_boundary (ls : List (List Char)) :
    ∀ current, (∀ l ∈ ls, isBoundaryLine l = false) →
    headerLoop ls current = if current ++ ls = [] then [] else [current ++ ls] := by
  induction ls with
  | nil =>
    intro current _
    rw [headerLoop]
    simp
  | cons line rest ih =>
    intro current h
    rw [headerLoop]
    rw [if_neg (by
      intro hcond
      rw [h line (by simp)] at hcond
      exact Bool.false_ne_true hcond.1)]
    rw [ih (current ++ [line]) (fun l hl => h l (by simp [hl]))]
    simp

lemma joinSep_append_of_ne (sep : List Char) (xs ys : List (List Char))
    (hx : xs ≠ []) (hy : ys ≠ []) :
    joinSep sep (xs ++ ys) = joinSep sep xs ++ sep ++ joinSep sep ys := by
  induction xs with
  | nil => exact absurd rfl hx
  | cons x xs' ih =>
    cases xs' with
    | nil =>
      cases ys with
      | nil => exact absurd rfl hy
      | cons y ys' =>
        simp only [List.singleton_append, joinSep_cons_cons, joinSep]
    | cons x' xs'' =>
      have h1 : (x :: x' :: xs'') ++ ys = x :: ((x' :: xs'') ++ ys) := rfl
      have h2 : (x' :: xs'') ++ ys = x' :: (xs'' ++ ys) := rfl
      rw [h1, h2, joinSep_cons_cons, ← h2, ih (by simp), joinSep_cons_cons]
      simp [List.append_assoc]

lemma joinSep_map_flatten (sep : List Char) (groups : List (List (List Char)))
    (h : ∀ g ∈ groups, g ≠ []) :
    joinSep sep (groups.map (joinSep sep)) = joinSep sep groups.flatten := by
  induction groups with
  | nil => simp [joinSep]
  | cons g gs ih =>
    cases gs with
    | nil => simp [joinSep]
    | cons g2 gs' =>
      rw [List.map_cons, List.map_cons, joinSep_cons_cons, ← List.map_cons]
      rw [ih (fun q hq => h q (by simp [List.mem_cons] at hq ⊢; tauto))]
      conv_rhs => rw [List.flatten_cons]
      rw [joinSep_append_of_ne sep g ((g2 :: gs').flatten) (h g (by simp)) ?_]
      have hg2 : g2 ≠ [] := h g2 (by simp)
      rw [List.flatten_cons]
      cases g2 with
      | nil => exact absurd rfl hg2
      | cons a as => simp

lemma splitOnHeaders_join (content : List Char) :
    joinSep ['\n'] (splitOnHeaders content) = content := by
  show joinSep ['\n'] ((headerLoop (pySplitChar '\n' content) []).map (joinSep ['\n'])) = _
  rw [joinSep_map_flatten ['\n'] _ (headerLoop_ne_nil _ [])]
  rw [headerLoop_flatten]
  simpa using joinSep_pySplitChar '\n' content

/- ------------------------------------------------------------------ -/
/- Claim theorems                                                      -/
/- ------------------------------------------------------------------ -/

/-- C4 counterexample: `CodeChunker(0, 200)` (non-positive `max_chars`)
and `DocumentChunker(1500, 1500)` (`overlap_chars ≥ max_chars`) are both
accepted at construction time; no error is raised, refuting the claim
that such configurations fail at construction. -/
theorem c4_no_validation_cx :
    CodeChunker.init 0 200 = Except.ok ⟨0, 200⟩ ∧
    DocumentChunker.init 1500 1500 = Except.ok ⟨1500, 1500⟩ ∧
    ¬ ∃ e, CodeChunker.init 0 200 = Except.error e := by
  refine ⟨rfl, rfl, ?_⟩
  rintro ⟨e, he⟩
  simp [CodeChunker.init] at he

/-- C4 amended: construction never fails — every `max_chars` and
`overlap_chars` (including non-positive limits and overlaps at least the
limit) is accepted by all three constructors, which perform no
validation at all. -/
theorem c4_init_never_fails (mc oc cmc dmc : Int) :
    CodeChunker.init mc oc = Except.ok ⟨mc, oc⟩ ∧
    DocumentChunker.init mc oc = Except.ok ⟨mc, oc⟩ ∧
    SemanticChunkerPipeline.init cmc dmc = Except.ok ⟨⟨cmc, 200⟩, ⟨dmc, 150⟩⟩ :=
  ⟨rfl, rfl, rfl⟩

/-- C7: the triviality filter drops a unit exactly when its name,
lower-cased, starts with `get`, `set` or `is` and its body holds at most
two semicolons; `getBalance` with one terminator is dropped, and
`getAdjustedBalance` with four terminators is kept. -/
theorem c7_triviality_filter :
    (∀ name body_text : List Char,
      isTrivialGetterSetter name body_text = true ↔
        ((∃ p ∈ ["get".toList, "set".toList, "is".toList],
            p <+: name.map Char.toLower) ∧
          body_text.count ';' ≤ 2)) ∧
    isTrivialGetterSetter "getBalance".toList "\x7b return balance; \x7d".toList = true ∧
    isTrivialGetterSetter "getAdjustedBalance".toList
      "\x7b int x = 1; int y = 2; x += y; return x + y; \x7d".toList = false := by
  refine ⟨?_, by decide, by decide⟩
  intro name body_text
  simp only [isTrivialGetterSetter]
  cases h : ["get".toList, "set".toList, "is".toList].any
      (fun p => p.isPrefixOf (name.map Char.toLower)) with
  | false =>
    simp only [h, Bool.not_false, if_true]
    constructor
    · intro hf
      exact absurd hf Bool.false_ne_true
    · rintro ⟨⟨p, hp, hpre⟩, _⟩
      rw [List.any_eq_false] at h
      exact absurd ((List.isPrefixOf_iff_prefix).mpr hpre) (by simpa using h p hp)
  | true =>
    simp only [h, Bool.not_true, Bool.false_eq_true, if_false, decide_eq_true_iff]
    constructor
    · intro hcount
      refine ⟨?_, hcount⟩
      rw [List.any_eq_true] at h
      obtain ⟨p, hp, hpre⟩ := h
      exact ⟨p, hp, (List.isPrefixOf_iff_prefix).mp hpre⟩
    · exact fun hconj => hconj.2

/-- Witness for C7: the characterisation applied at a concrete setter. -/
theorem c7_triviality_filter_witness :
    isTrivialGetterSetter "setFoo".toList "x;".toList = true :=
  (c7_triviality_filter.1 "setFoo".toList "x;".toList).mpr (by decide)

/-- C9: empty input is never an error — document content that strips to
empty yields an empty chunk list, and an empty unit list yields an empty
chunk list, for every configuration (the model is total: no exception
path exists). -/
theorem c9_empty_input :
    (∀ (self : DocumentChunker) (fuel : Nat) (content src ft : List Char),
      pyStrip content = [] → self.chunkFuel fuel content src ft = some []) ∧
    (∀ self : CodeChunker, self.chunk [] = []) := by
  constructor
  · intro self fuel content src ft h
    simp [DocumentChunker.chunkFuel, h]
  · intro self
    simp [CodeChunker.chunk]

/-- Witness for C9 at whitespace-only document content and an empty unit
list. -/
theorem c9_empty_input_witness :
    DocumentChunker.chunkFuel ⟨1500, 150⟩ 0 " ".toList [] [] = some [] ∧
    CodeChunker.chunk ⟨2048, 200⟩ [] = [] :=
  ⟨c9_empty_input.1 ⟨1500, 150⟩ 0 " ".toList [] [] (by decide),
   c9_empty_input.2 ⟨2048, 200⟩⟩

/-- C10: `parse_file` on a path whose computed extension is none of the
supported ones returns an empty unit list, whatever the extraction
functions would do (so no parser is invoked and nothing can raise). -/
theorem c10_parse_file_unsupported
    (extractJava extractTs : List Char → List Char → List CodeChunk)
    (file_content file_path : List Char)
    (h : extOf file_path ∉ ["java".toList, "ts".toList, "tsx".toList]) :
    parse_file extractJava extractTs file_content file_path = [] := by
  simp only [parse_file]
  rw [if_neg (by intro h1; simp [h1] at h)]
  rw [if_neg (by rintro (h1 | h1) <;> simp [h1] at h)]

/-- Witness for C10 at a Python file. -/
theorem c10_parse_file_unsupported_witness :
    parse_file (fun _ _ => []) (fun _ _ => []) [] "main.py".toList = [] :=
  c10_parse_file_unsupported _ _ [] "main.py".toList (by decide)

/-- C2 (code bug): `DocumentChunker(1500, 150).chunk(" \n# A")` emits a
first chunk whose content is the empty string — the whitespace-only
leading section survives the structural split and the small-section
branch strips it without re-checking emptiness — contradicting the
non-empty-content invariant.  The result is independent of the carving
fuel because neither section exceeds `max_chars`. -/
theorem c2_empty_content_emitted (fuel : Nat) :
    DocumentChunker.chunkFuel ⟨1500, 150⟩ fuel (" \n# A".toList) "d".toList "md".toList
      = some [mkDocChunk "d".toList "md".toList 0 [],
              mkDocChunk "d".toList "md".toList 1 ("# A".toList)] ∧
    (mkDocChunk "d".toList "md".toList 0 []).content = [] :=
  ⟨rfl, rfl⟩

/-- C6 (code bug): the carving loop of `_split_by_length` need not
terminate.  With `max_chars = 5`, `overlap_chars = 2` (a configuration
with `0 ≤ overlap_chars < max_chars`) and text `"ab\n\ncdefgh"`, the
window shrinks to the paragraph break at position 2 and the overlap
rewinds `start` from 2 back to 0, so the loop revisits `start = 0`
forever: no amount of fuel completes it. -/
theorem c6_carving_loop_diverges :
    ∀ (fuel subIdx : Nat) (acc : List SemanticChunk),
      splitByLenLoop 5 2 ("ab\n\ncdefgh".toList) "s".toList 0 fuel 0 subIdx acc
        = none := by
  intro fuel
  induction fuel with
  | zero => intro subIdx acc; rfl
  | succ n ih =>
    intro subIdx acc
    have step : splitByLenLoop 5 2 ("ab\n\ncdefgh".toList) "s".toList 0 (n + 1) 0 subIdx acc
        = splitByLenLoop 5 2 ("ab\n\ncdefgh".toList) "s".toList 0 n 0 (subIdx + 1)
            (acc ++ [mkDocSubChunk "s".toList 0 subIdx ("ab".toList)]) := rfl
    rw [step]
    exact ih (subIdx + 1) _

lemma foldl_addToGroups_snd_ne (us : List CodeChunk) :
    ∀ gs, (∀ q ∈ gs, q.2 ≠ []) → ∀ p ∈ us.foldl addToGroups gs, p.2 ≠ [] := by
  induction us with
  | nil => intro gs h p hp; exact h p hp
  | cons u us ih =>
    intro gs h p hp
    exact ih (addToGroups gs u) (addToGroups_snd_ne gs u h) p hp

lemma groupByFile_snd_ne (units : List CodeChunk) :
    ∀ p ∈ groupByFile units, p.2 ≠ [] :=
  foldl_addToGroups_snd_ne units [] (by simp)

/-- Unit `A` of the C1 counterexample: entry text `"ab"` (2 chars). -/
def c1UnitA : CodeChunk :=
  { name := "a".toList, language := "java".toList, body := "ab".toList,
    start_line := 1, file_path := "f".toList }

/-- Unit `B` of the C1 counterexample: entry text `"cd"` (2 chars). -/
def c1UnitB : CodeChunk :=
  { name := "b".toList, language := "java".toList, body := "cd".toList,
    start_line := 2, file_path := "f".toList }

/-- C1 counterexample: with `max_chars = 5`, two units of entry length 2
each (so no single entry exceeds the limit) merge into one chunk whose
content `"ab\n\ncd"` has length 6 > 5 — the running length ignores the
2-character blank-line separators, refuting the ≤ `max_chars` bound. -/
theorem c1_size_bound_cx :
    CodeChunker.chunk ⟨5, 200⟩ [c1UnitA, c1UnitB]
      = [mkCodeChunk "f".toList 0 ("ab\n\ncd".toList) "java".toList] ∧
    ("ab\n\ncd".toList).length = 6 ∧
    (entryText c1UnitA).length = 2 ∧ (entryText c1UnitB).length = 2 := by
  decide

/-- C1 amended: every emitted chunk's content is the blank-line join of
a non-empty run of unit entry texts; a run of length ≥ 2 has total entry
length at most `max_chars`, so its content length is at most
`max_chars + 2·(k−1)` for `k` entries (the separators are not counted by
the merger); a single-entry chunk is passed through untruncated and may
exceed `max_chars`. -/
theorem c1_size_bound_amended (self : CodeChunker) (units : List CodeChunk)
    (c : SemanticChunk) (hc : c ∈ self.chunk units) :
    ∃ entries, entries ≠ [] ∧ c.content = joinSep blankSep entries ∧
      (∀ e ∈ entries, ∃ u ∈ units, e = entryText u) ∧
      (entries.length = 1 ∨ ((sumLen entries : Int) ≤ self.max_chars ∧
        (c.content.length : Int) ≤ self.max_chars + 2 * ((entries.length : Int) - 1))) := by
  rw [CodeChunker.chunk] at hc
  split at hc
  · simp at hc
  · rw [List.mem_flatMap] at hc
    obtain ⟨g, hg, hcg⟩ := hc
    dsimp only at hcg
    obtain ⟨entries, hne, hcont, hmem, hsize⟩ :=
      chunkLoop_shape g.1 self.max_chars _ (sortByStart g.2) [] 0 0
        (by simp [sumLen]) (Or.inl rfl) c hcg
    refine ⟨entries, hne, hcont, ?_, ?_⟩
    · intro e he
      rcases hmem e he with h1 | ⟨u, hu, he'⟩
      · simp at h1
      · exact ⟨u, mem_of_mem_groupByFile units g hg u ((mem_sortByStart _ _).mp hu), he'⟩
    · rcases hsize with h1 | h2
      · exact Or.inl h1
      · refine Or.inr ⟨h2, ?_⟩
        have hlen : (joinSep blankSep entries).length
            = sumLen entries + 2 * (entries.length - 1) := by
          rw [joinSep_length]; simp [blankSep]
        rw [hcont, hlen]
        have h1le : 1 ≤ entries.length := List.length_pos.mpr hne
        push_cast
        omega

/-- The unit used to witness the amended C1 statement. -/
def c1wUnit : CodeChunk :=
  { name := "m".toList, language := "java".toList, body := "xy".toList,
    start_line := 1, file_path := "g".toList }

/-- Witness for the amended C1 statement on a one-unit file. -/
theorem c1_size_bound_amended_witness :
    ∃ entries, entries ≠ [] ∧
      (mkCodeChunk "g".toList 0 ("xy".toList) "java".toList).content
        = joinSep blankSep entries ∧
      (∀ e ∈ entries, ∃ u ∈ [c1wUnit], e = entryText u) ∧
      (entries.length = 1 ∨ ((sumLen entries : Int) ≤ (2048 : Int) ∧
        ((mkCodeChunk "g".toList 0 ("xy".toList) "java".toList).content.length : Int)
          ≤ (2048 : Int) + 2 * ((entries.length : Int) - 1))) :=
  c1_size_bound_amended ⟨2048, 200⟩ [c1wUnit] _ (by decide)

/-- Unit `A` of the C5 counterexample (language `"java"`). -/
def c5UnitA : CodeChunk :=
  { name := "a".toList, language := "java".toList, body := "abc".toList,
    start_line := 1, file_path := "f".toList }

/-- Unit `B` of the C5 counterexample (language `"ts"`). -/
def c5UnitB : CodeChunk :=
  { name := "b".toList, language := "ts".toList, body := "xyz".toList,
    start_line := 2, file_path := "f".toList }

/-- C5 counterexample: with `max_chars = 5` the mixed-language file
produces a first chunk holding exactly unit A's text but recording unit
B's language (B triggered the flush and is not in the chunk), and a
final chunk holding exactly unit B's text but recording the first
sorted unit's language — in both cases not the language of the last
(only) contributing unit. -/
theorem c5_language_cx :
    CodeChunker.chunk ⟨5, 200⟩ [c5UnitA, c5UnitB]
      = [mkCodeChunk "f".toList 0 ("abc".toList) "ts".toList,
         mkCodeChunk "f".toList 1 ("xyz".toList) "java".toList] ∧
    (mkCodeChunk "f".toList 0 ("abc".toList) "ts".toList).content = entryText c5UnitA ∧
    metaLanguage (mkCodeChunk "f".toList 0 ("abc".toList) "ts".toList)
      ≠ some c5UnitA.language ∧
    (mkCodeChunk "f".toList 1 ("xyz".toList) "java".toList).content = entryText c5UnitB ∧
    metaLanguage (mkCodeChunk "f".toList 1 ("xyz".toList) "java".toList)
      ≠ some c5UnitB.language := by
  decide

/-- C5 amended: mid-loop flushes record the language of the unit being
processed at flush time (not part of the chunk) and the final flush
records the first sorted unit's language; consequently, whenever all
input units share one language `L`, every emitted chunk records `L`. -/
theorem c5_language_amended (self : CodeChunker) (units : List CodeChunk)
    (L : List Char) (h : ∀ u ∈ units, u.language = L) :
    ∀ c ∈ self.chunk units, ∃ fp i, c.metadata = ChunkMeta.code fp L i := by
  intro c hc
  rw [CodeChunker.chunk] at hc
  split at hc
  · simp at hc
  · rw [List.mem_flatMap] at hc
    obtain ⟨g, hg, hcg⟩ := hc
    dsimp only at hcg
    cases hsort : sortByStart g.2 with
    | nil => exact absurd hsort (sortByStart_ne_nil g.2 (groupByFile_snd_ne units g hg))
    | cons u0 rest =>
      rw [hsort] at hcg
      have hmemsort : ∀ u ∈ u0 :: rest, u ∈ units := by
        intro u hu
        exact mem_of_mem_groupByFile units g hg u
          ((mem_sortByStart g.2 u).mp (by rw [hsort]; exact hu))
      have hu0 : u0.language = L := h u0 (hmemsort u0 (by simp))
      rw [show (match u0 :: rest with
            | [] => "unknown".toList
            | u :: _ => u.language) = u0.language from rfl, hu0] at hcg
      exact ⟨g.1, chunkLoop_lang g.1 self.max_chars L (u0 :: rest) [] 0 0
        (fun u hu => h u (hmemsort u hu)) c hcg⟩

/-- The unit used to witness the amended C5 statement. -/
def c5wUnit : CodeChunk :=
  { name := "n".toList, language := "java".toList, body := "pq".toList,
    start_line := 1, file_path := "h".toList }

/-- Witness for the amended C5 statement on a one-unit file. -/
theorem c5_language_amended_witness :
    ∃ fp i, (mkCodeChunk "h".toList 0 ("pq".toList) "java".toList).metadata
      = ChunkMeta.code fp ("java".toList) i :=
  c5_language_amended ⟨2048, 200⟩ [c5wUnit] "java".toList (by decide)
    (mkCodeChunk "h".toList 0 ("pq".toList) "java".toList) (by decide)

/-- The unit of the C3 counterexample: its body contains a blank line. -/
def c3Unit : CodeChunk :=
  { name := "m".toList, language := "java".toList, body := "a\n\nb".toList,
    start_line := 1, file_path := "f".toList }

/-- C3 counterexample: a unit whose body contains a blank line is torn
apart by re-splitting on the join separator — the single emitted chunk
splits into `["a", "b"]` instead of reproducing the unit's entry text
`"a\n\nb"`. -/
theorem c3_round_trip_cx :
    (CodeChunker.chunk ⟨2048, 200⟩ [c3Unit]).flatMap
        (fun c => pySplitStr blankSep c.content)
      = ["a".toList, "b".toList] ∧
    ["a".toList, "b".toList] ≠ [c3Unit].map entryText := by
  constructor
  · have h1 : CodeChunker.chunk ⟨2048, 200⟩ [c3Unit]
        = [mkCodeChunk "f".toList 0 ("a\n\nb".toList) "java".toList] := by decide
    rw [h1]
    simp only [List.flatMap_cons, List.flatMap_nil, List.append_nil, mkCodeChunk]
    show splitStrGo '\n' ['\n'] ("a\n\nb".toList) = _
    rw [show ("a\n\nb".toList) = "a".toList ++ ('\n' :: ['\n']) ++ "b".toList from rfl]
    rw [splitStrGo_word_append '\n' ['\n'] ("a".toList) ("b".toList) (by decide)]
    rw [splitStrGo_clean '\n' ['\n'] ("b".toList) (by decide)]
  · decide

/-- C3 amended: for a single file's unit list, already sorted by start
line, whose entry texts never overlap the separator (no internal
`"\n\n"` and no trailing newline), splitting each emitted chunk's
content on `"\n\n"` and concatenating in order reproduces the entry
texts exactly once each, in original order. -/
theorem c3_round_trip_amended (self : CodeChunker) (units : List CodeChunk)
    (fp : List Char) (hfp : ∀ u ∈ units, u.file_path = fp)
    (hsorted : List.Pairwise (fun a b => a.start_line ≤ b.start_line) units)
    (hclean : ∀ u ∈ units, sepClean blankSep (entryText u) = true) :
    (self.chunk units).flatMap (fun c => pySplitStr blankSep c.content)
      = units.map entryText := by
  rw [CodeChunker.chunk]
  split
  case isTrue h => subst h; rfl
  case isFalse h =>
    rw [groupByFile_single units fp h hfp]
    simp only [List.flatMap_cons, List.flatMap_nil, List.append_nil]
    rw [sortByStart_eq_of_sorted units hsorted]
    rw [chunkLoop_splitJoin fp self.max_chars _ units [] 0 0 (by simp) hclean]
    simp

/-- First unit of the C3 witness file. -/
def c3wUnitA : CodeChunk :=
  { name := "p".toList, language := "java".toList, body := "ab".toList,
    start_line := 1, file_path := "k".toList }

/-- Second unit of the C3 witness file. -/
def c3wUnitB : CodeChunk :=
  { name := "q".toList, language := "java".toList, body := "cd".toList,
    start_line := 2, file_path := "k".toList }

/-- Witness for the amended C3 statement on a sorted two-unit file with
separator-clean bodies. -/
theorem c3_round_trip_amended_witness :
    (CodeChunker.chunk ⟨2048, 200⟩ [c3wUnitA, c3wUnitB]).flatMap
        (fun c => pySplitStr blankSep c.content)
      = [c3wUnitA, c3wUnitB].map entryText :=
  c3_round_trip_amended ⟨2048, 200⟩ [c3wUnitA, c3wUnitB] "k".toList
    (by decide) (by decide) (by decide)

/-- C8: the structural split (a) joins back to the input with newlines,
(b) yields exactly one whole-text section when no line is a boundary,
(c) produces only non-empty sections in which no non-initial line is a
boundary, (d) starts every section after the first at a boundary line,
and (e) splits the four-line example into exactly the two expected
sections. -/
theorem c8_structural_split :
    (∀ content : List Char,
      joinSep ['\n'] (splitOnHeaders content) = content ∧
      ((∀ l ∈ pySplitChar '\n' content, isBoundaryLine l = false) →
        splitOnHeaders content = [content]) ∧
      (∀ g ∈ headerLoop (pySplitChar '\n' content) [], g ≠ [] ∧
        ∀ l ∈ g.tail, isBoundaryLine l = false) ∧
      (∀ g ∈ (headerLoop (pySplitChar '\n' content) []).tail,
        ∃ l₀ g', g = l₀ :: g' ∧ isBoundaryLine l₀ = true)) ∧
    splitOnHeaders ("# A\nHello\n# B\nWorld".toList)
      = ["# A\nHello".toList, "# B\nWorld".toList] := by
  constructor
  · intro content
    refine ⟨splitOnHeaders_join content, ?_, ?_, headerLoop_tail_heads _⟩
    · intro h
      show (headerLoop (pySplitChar '\n' content) []).map (joinSep ['\n']) = [content]
      rw [headerLoop_no_boundary _ [] h]
      rw [if_neg (by simpa using pySplitChar_ne_nil '\n' content)]
      simp only [List.nil_append, List.map_cons, List.map_nil]
      rw [joinSep_pySplitChar '\n' content]
    · intro g hg
      exact ⟨headerLoop_ne_nil _ [] g hg,
        headerLoop_tail_clean _ [] (by simp) g hg⟩
  · decide

/-- Witness for C8: the no-boundary case applied at a concrete two-line
document, together with its round trip. -/
theorem c8_structural_split_witness :
    joinSep ['\n'] (splitOnHeaders ("x\ny".toList)) = "x\ny".toList ∧
    splitOnHeaders ("x\ny".toList) = ["x\ny".toList] :=
  ⟨(c8_structural_split.1 ("x\ny".toList)).1,
   (c8_structural_split.1 ("x\ny".toList)).2.1 (by decide)⟩
